import Mathlib

/-!
Shallow embedding of the NIFTYMUTIBAGGER data-reshaping pipeline.

The repository consists of three Python scripts that fetch stock data from an
HTTP API and reshape the JSON payloads into spreadsheet tables:

* `HistoricalPrice.py` — builds a per-symbol consolidated wide table from a
  "series shape" payload (`{"datasets": [{"label", "values"}, ...]}`) via
  pairwise pandas outer merges on the `Date` column.
* `HistoricalStats.py` — flattens an "attribute shape" payload
  (`{attribute: {date: value}}`) into long-form `(Symbol, Date, Attribute,
  Value)` records and writes them after a full batch run.
* `HistoricalStatsPivoted.py` — additionally deduplicates, mean-aggregates
  and pivots the long table into a wide table.

The HTTP and file I/O layers are modelled by explicit parameters (a fetch
function returning the decoded payload, an `Option`-valued artifact state for
a written file); everything with actual logic is embedded directly from the
source.  Machine floats are modelled by `ℚ` (the arithmetic performed — sums
and a mean of small collections — is exact in the claims considered), pandas
missing values (`NaN` after an outer merge) by `Option`.
-/

/-- First-occurrence duplicate removal with an accumulator of already seen
elements; `pandas.DataFrame.drop_duplicates` keeps the first of each group
of identical rows. -/
def dropDupAux {α : Type} [DecidableEq α] (seen : List α) : List α → List α
  | [] => []
  | a :: l => if a ∈ seen then dropDupAux seen l else a :: dropDupAux (a :: seen) l

/-- `drop_duplicates` (pandas): keep the first occurrence of every element. -/
def dropDuplicates {α : Type} [DecidableEq α] (l : List α) : List α :=
  dropDupAux [] l

theorem mem_dropDupAux {α : Type} [DecidableEq α] (x : α) :
    ∀ (l seen : List α), x ∈ dropDupAux seen l ↔ x ∈ l ∧ x ∉ seen := by
  intro l
  induction l with
  | nil => intro seen; simp [dropDupAux]
  | cons a l ih =>
    intro seen
    by_cases ha : a ∈ seen
    · rw [dropDupAux, if_pos ha, ih]
      constructor
      · rintro ⟨hx, hns⟩
        exact ⟨List.mem_cons_of_mem a hx, hns⟩
      · rintro ⟨hx, hns⟩
        rcases List.mem_cons.1 hx with rfl | hx2
        · exact absurd ha hns
        · exact ⟨hx2, hns⟩
    · rw [dropDupAux, if_neg ha]
      constructor
      · intro hmem
        rcases List.mem_cons.1 hmem with rfl | hx2
        · exact ⟨List.mem_cons_self x l, ha⟩
        · have hx3 := (ih (a :: seen)).1 hx2
          refine ⟨List.mem_cons_of_mem a hx3.1, ?_⟩
          intro hs
          exact hx3.2 (List.mem_cons_of_mem a hs)
      · rintro ⟨hx, hns⟩
        rcases List.mem_cons.1 hx with rfl | hx2
        · exact List.mem_cons_self x _
        · by_cases hxa : x = a
          · subst hxa; exact List.mem_cons_self x _
          · refine List.mem_cons_of_mem a ((ih (a :: seen)).2 ⟨hx2, ?_⟩)
            intro hs
            rcases List.mem_cons.1 hs with h1 | h2
            · exact hxa h1
            · exact hns h2

theorem mem_dropDuplicates {α : Type} [DecidableEq α] (x : α) (l : List α) :
    x ∈ dropDuplicates l ↔ x ∈ l := by
  simp [dropDuplicates, mem_dropDupAux]

theorem nodup_dropDupAux {α : Type} [DecidableEq α] :
    ∀ (l seen : List α), (dropDupAux seen l).Nodup := by
  intro l
  induction l with
  | nil => intro seen; simp [dropDupAux]
  | cons a l ih =>
    intro seen
    by_cases ha : a ∈ seen
    · simpa [dropDupAux, if_pos ha] using ih seen
    · simp only [dropDupAux, if_neg ha, List.nodup_cons]
      refine ⟨?_, ih (a :: seen)⟩
      intro hmem
      have := (mem_dropDupAux a l (a :: seen)).1 hmem
      exact this.2 (List.mem_cons_self a seen)

theorem nodup_dropDuplicates {α : Type} [DecidableEq α] (l : List α) :
    (dropDuplicates l).Nodup :=
  nodup_dropDupAux l []

theorem dropDupAux_eq_self {α : Type} [DecidableEq α] :
    ∀ (l seen : List α), l.Nodup → (∀ x ∈ l, x ∉ seen) → dropDupAux seen l = l := by
  intro l
  induction l with
  | nil => intro seen _ _; rfl
  | cons a l ih =>
    intro seen hnd hdisj
    have ha : a ∉ seen := hdisj a (List.mem_cons_self a l)
    simp only [dropDupAux, if_neg ha]
    congr 1
    refine ih (a :: seen) (List.Nodup.of_cons hnd) ?_
    intro x hx
    simp only [List.mem_cons, not_or]
    constructor
    · rintro rfl
      exact (List.nodup_cons.1 hnd).1 hx
    · exact hdisj x (List.mem_cons_of_mem a hx)

theorem dropDuplicates_eq_self {α : Type} [DecidableEq α] {l : List α}
    (h : l.Nodup) : dropDuplicates l = l :=
  dropDupAux_eq_self l [] h (by intro x _; simp)

namespace HistoricalPrice

/-- One element of the `datasets` array of a series-shape payload: a `label`
and a list of `values` rows, each row being a date followed by the remaining
numeric fields (`[date, v1, v2, ...]`). -/
structure Dataset where
  label : String
  values : List (String × List ℚ)
deriving DecidableEq

/-- `len(example_entry) - 1`: the number of non-Date fields of the first row,
which determines the column count of the per-dataset DataFrame. -/
def arityOf (ds : Dataset) : Nat :=
  match ds.values with
  | [] => 0
  | r :: _ => r.2.length

/-- `[f'{dataset["label"]} {i}' for i in range(1, len(example_entry))]`. -/
def datasetCols (ds : Dataset) : List String :=
  (List.range (arityOf ds)).map (fun i => ds.label ++ " " ++ toString (i + 1))

/-- A pandas DataFrame keyed by the `Date` column: the non-Date column names
and the rows, each row a date and the cells of the non-Date columns (an
absent cell — `NaN` after an outer merge — is `none`). -/
structure Table where
  cols : List String
  rows : List (String × List (Option ℚ))
deriving DecidableEq

/-- `pd.DataFrame(dataset['values'], columns=columns)`. -/
def datasetTable (ds : Dataset) : Table :=
  ⟨datasetCols ds, ds.values.map (fun r => (r.1, r.2.map some))⟩

/-- A row of `NaN` cells for the columns of a table absent at some date. -/
def nullRow (n : Nat) : List (Option ℚ) :=
  List.replicate n none

/-- Whether some row of `t` has date `d`. -/
def hasDate (t : Table) (d : String) : Bool :=
  t.rows.any (fun r => r.1 == d)

/-- The rows a single left row contributes to an outer merge: one combined
row per matching right row, or one null-padded row when the right table has
no row with this date. -/
def mergeOne (t2 : Table) (r : String × List (Option ℚ)) :
    List (String × List (Option ℚ)) :=
  let ms := t2.rows.filter (fun r2 => r2.1 == r.1)
  if ms.isEmpty then [(r.1, r.2 ++ nullRow t2.cols.length)]
  else ms.map (fun r2 => (r.1, r.2 ++ r2.2))

/-- The rows of `pd.merge(t1, t2, on='Date', how='outer')`: every left row
combined with its date's matches (or null-padded), then the unmatched right
rows null-padded on the left. -/
def mergeRows (t1 t2 : Table) : List (String × List (Option ℚ)) :=
  t1.rows.flatMap (mergeOne t2) ++
    (t2.rows.filter (fun r2 => !(hasDate t1 r2.1))).map
      (fun r2 => (r2.1, nullRow t1.cols.length ++ r2.2))

/-- `pd.merge(t1, t2, on='Date', how='outer')`. -/
def merge (t1 t2 : Table) : Table :=
  ⟨t1.cols ++ t2.cols, mergeRows t1 t2⟩

/-- `pd.DataFrame()`: the initial empty accumulator. -/
def emptyTable : Table := ⟨[], []⟩

/-- The body of the `for dataset in data['datasets']` loop: skip a dataset
with empty `values`; the first kept dataset becomes the accumulator, later
ones are outer-merged into it on `Date`. -/
def consStep (acc : Table) (ds : Dataset) : Table :=
  if ds.values.isEmpty then acc
  else if acc.rows.isEmpty then datasetTable ds
  else merge acc (datasetTable ds)

/-- The consolidated DataFrame accumulated over all datasets of the payload. -/
def buildConsolidated (datasets : List Dataset) : Table :=
  datasets.foldl consStep emptyTable

/-- The table written for one symbol: the consolidated table plus the
uniformly populated `Symbol` column appended by
`consolidated_df['Symbol'] = symbol`. -/
structure ConsTable where
  table : Table
  symbol : String
deriving DecidableEq

/-- The full header of the written sheet: `Date`, the merged data columns,
then the appended `Symbol` column. -/
def consCols (c : ConsTable) : List String :=
  "Date" :: c.table.cols ++ ["Symbol"]

/-- `save_to_excel_consolidated`: skip when `datasets` is absent/empty,
otherwise delete any existing output file and write the consolidated table
(the artifact state `fs` is the content of the output file). -/
def save_to_excel_consolidated (datasets : List Dataset) (symbol : String)
    (fs : Option ConsTable) : Option ConsTable :=
  if datasets.isEmpty then fs
  else some ⟨buildConsolidated datasets, symbol⟩

/-- `process_all_symbols`: fetch each symbol's payload and run
`save_to_excel_consolidated` on the same output path for each. -/
def process_all_symbols (fetch : String → List Dataset) (symbols : List String)
    (fs : Option ConsTable) : Option ConsTable :=
  symbols.foldl (fun acc s => save_to_excel_consolidated (fetch s) s acc) fs

/-- All dates appearing in any dataset of the payload, with multiplicity. -/
def allDates (datasets : List Dataset) : List String :=
  datasets.flatMap (fun ds => ds.values.map Prod.fst)

/-- The cells one dataset contributes to the consolidated row of date `d`:
its own row's values when it has the date, a null cell for each of its
columns when it lacks it. -/
def dsCell (ds : Dataset) (d : String) : List (Option ℚ) :=
  match ds.values.find? (fun r => r.1 == d) with
  | some r => r.2.map some
  | none => nullRow (arityOf ds)

/-- The expected consolidated row of date `d`: each dataset's cells in
payload order. -/
def cellSpec (datasets : List Dataset) (d : String) : List (Option ℚ) :=
  datasets.flatMap (fun ds => dsCell ds d)

/-- The list of dates of a table's rows. -/
def datesOf (t : Table) : List String :=
  t.rows.map Prod.fst

end HistoricalPrice

namespace HistoricalStats

/-- A decoded JSON document, as `json.loads` returns it. -/
inductive Json where
  | null : Json
  | bool : Bool → Json
  | num : ℚ → Json
  | str : String → Json
  | arr : List Json → Json
  | obj : List (String × Json) → Json

/-- Python truthiness of a decoded JSON value (`if not data`). -/
def truthy : Json → Bool
  | .null => false
  | .bool b => b
  | .num q => q != 0
  | .str s => s != ""
  | .arr l => !l.isEmpty
  | .obj l => !l.isEmpty

/-- Whether the value is a JSON object (a Python `dict`, the only values
with an `.items()` method). -/
def isObj : Json → Bool
  | .obj _ => true
  | _ => false

/-- The entries of a JSON object; `[]` on any other value. -/
def entriesOf : Json → List (String × Json)
  | .obj es => es
  | _ => []

/-- One flattened output row `[symbol, date, attribute, value]`. -/
abbrev StatRecord := String × String × String × Json

/-- The nested `for attribute, values in data.items(): for date, value in
values.items()` loops; a non-dict attribute value makes `values.items()`
raise an uncaught `AttributeError`. -/
def flattenFields (symbol : String) :
    List (String × Json) → Except String (List StatRecord)
  | [] => .ok []
  | (attr, v) :: rest =>
    match v with
    | .obj es => do
        let more ← flattenFields symbol rest
        .ok (es.map (fun e => (symbol, e.1, attr, e.2)) ++ more)
    | _ => .error "AttributeError: values has no attribute items"

/-- `process_data`: `None` or falsy payloads give no records; an
attribute-shape object is flattened; any other truthy payload makes
`data.items()` raise an uncaught `AttributeError`. -/
def process_data (symbol stat_type : String) (data : Option Json) :
    Except String (List StatRecord) :=
  match data with
  | none => .ok []
  | some j =>
    if truthy j = false then .ok []
    else
      match j with
      | .obj fields => flattenFields symbol fields
      | _ => .error "AttributeError: data has no attribute items"

/-- The fixed list of requested statistics. -/
def STAT_TYPES : List String :=
  ["quarter_results", "yoy_results", "balancesheet", "cashflow",
   "ratios", "shareholding_pattern_quarterly", "shareholding_pattern_yearly"]

/-- The inner `for stat_type in STAT_TYPES` loop of `process_symbols`:
`fetched s t` is the decoded payload of `fetch_historical_stats` (`none`
both for a missing body and for a `json.JSONDecodeError`, which the fetch
catches and turns into `None`). -/
def collectStats (fetched : String → String → Option Json) (symbol : String) :
    List String → Except String (List StatRecord)
  | [] => .ok []
  | st :: rest => do
      let rs ← process_data symbol st (fetched symbol st)
      let more ← collectStats fetched symbol rest
      .ok (rs ++ more)

/-- The outer `for symbol in symbols` loop of `process_symbols`,
accumulating `all_data`. -/
def collectAll (fetched : String → String → Option Json) :
    List String → Except String (List StatRecord)
  | [] => .ok []
  | s :: rest => do
      let rs ← collectStats fetched s STAT_TYPES
      let more ← collectAll fetched rest
      .ok (rs ++ more)

/-- `save_to_excel`: delete any existing file and write the records; the
result is the new artifact content, independent of the previous one. -/
def save_to_excel (records : List StatRecord) (fs : Option (List StatRecord)) :
    Option (List StatRecord) :=
  some records

/-- `process_symbols`: accumulate all records, then write them only when the
accumulated list is non-empty (otherwise the artifact is left untouched).
An uncaught exception from `process_data` terminates the batch. -/
def process_symbols (fetched : String → String → Option Json)
    (symbols : List String) (fs : Option (List StatRecord)) :
    Except String (Option (List StatRecord)) := do
  let all ← collectAll fetched symbols
  if all.isEmpty then .ok fs else .ok (save_to_excel all fs)

/-- A payload the per-item error handling actually copes with: undecodable
(`none`), falsy, or a well-shaped attribute map (every attribute value a
JSON object). -/
def payloadOk : Option Json → Bool
  | none => true
  | some j => !truthy j || (match j with
      | .obj fields => fields.all (fun p => isObj p.2)
      | _ => false)

end HistoricalStats

namespace HistoricalStatsPivoted

/-- One long-form row `(Symbol, Date, Attribute, Value)` as read back from
the spreadsheet for pivoting. -/
abbrev Row := String × String × String × ℚ

/-- The `(Symbol, Date, Attribute)` key of a row. -/
def rowKey (r : Row) : String × String × String :=
  (r.1, r.2.1, r.2.2.1)

/-- The `Value` field of a row. -/
def rowVal (r : Row) : ℚ :=
  r.2.2.2

/-- The `Value`s of all rows of `l` with key `k`, in order. -/
def valuesAt (l : List Row) (k : String × String × String) : List ℚ :=
  (l.filter (fun r => decide (rowKey r = k))).map rowVal

/-- The arithmetic mean used by `.agg({"Value": "mean"})`. -/
def meanQ (l : List ℚ) : ℚ :=
  l.sum / (l.length : ℚ)

/-- `df.groupby(["Symbol", "Date", "Attribute"], as_index=False).agg({"Value":
"mean"})`: one output row per distinct key, carrying the mean of the group's
values. -/
def aggMean (l : List Row) : List Row :=
  (dropDuplicates (l.map rowKey)).map
    (fun k => (k.1, k.2.1, k.2.2, meanQ (valuesAt l k)))

/-- Lines 123 and 126 of `HistoricalStatsPivoted.py`: drop exact duplicate
rows, then group by `(Symbol, Date, Attribute)` and mean-aggregate `Value`. -/
def dedupAggregate (l : List Row) : List Row :=
  aggMean (dropDuplicates l)

/-- The wide table produced by `df.pivot(index=["Symbol", "Date"],
columns="Attribute", values="Value")`: the attribute columns and, per
distinct `(Symbol, Date)` index, the cell of each attribute column. -/
structure WideTable where
  attrs : List String
  rows : List ((String × String) × List (Option ℚ))

/-- The attribute column headers of the pivot. -/
def attrsOf (l : List Row) : List String :=
  dropDuplicates (l.map (fun r => r.2.2.1))

/-- The cell of the pivoted table at index `sd` and column `a`: the `Value`
of the row with that key, `NaN` when the combination was never observed. -/
def lookupVal (l : List Row) (sd : String × String) (a : String) : Option ℚ :=
  (l.find? (fun r => decide (rowKey r = (sd.1, sd.2, a)))).map rowVal

/-- `df.pivot(index=["Symbol", "Date"], columns="Attribute",
values="Value").reset_index()`. -/
def pivotWide (l : List Row) : WideTable :=
  ⟨attrsOf l,
   (dropDuplicates (l.map (fun r => (r.1, r.2.1)))).map
     (fun sd => (sd, (attrsOf l).map (lookupVal l sd)))⟩

/-- `pivot_stock_data` on the sheet content: dedup, mean-aggregate, pivot. -/
def pivot_stock_data (l : List Row) : WideTable :=
  pivotWide (dedupAggregate l)

/-- Flattening a wide table back to long form by dropping null cells. -/
def flattenWide (w : WideTable) : List Row :=
  w.rows.flatMap (fun p =>
    (w.attrs.zip p.2).filterMap
      (fun q => q.2.map (fun v => (p.1.1, p.1.2, q.1, v))))

end HistoricalStatsPivoted

namespace HistoricalStatsPivoted

theorem map_rowKey_aggMean (l : List Row) :
    (aggMean l).map rowKey = dropDuplicates (l.map rowKey) := by
  rw [aggMean, List.map_map]
  have h : (rowKey ∘ fun k : String × String × String =>
      (k.1, k.2.1, k.2.2, meanQ (valuesAt l k))) = id := funext fun k => rfl
  rw [h, List.map_id]

theorem nodup_keys_aggMean (l : List Row) : ((aggMean l).map rowKey).Nodup := by
  rw [map_rowKey_aggMean]
  exact nodup_dropDuplicates _

theorem mem_keys_aggMean (l : List Row) (k : String × String × String) :
    k ∈ (aggMean l).map rowKey ↔ k ∈ l.map rowKey := by
  rw [map_rowKey_aggMean]
  exact mem_dropDuplicates _ _

theorem mem_map_rowKey_dropDuplicates (l : List Row) (k : String × String × String) :
    k ∈ (dropDuplicates l).map rowKey ↔ k ∈ l.map rowKey := by
  simp only [List.mem_map]
  constructor
  · rintro ⟨r, hr, rfl⟩
    exact ⟨r, (mem_dropDuplicates _ _).1 hr, rfl⟩
  · rintro ⟨r, hr, rfl⟩
    exact ⟨r, (mem_dropDuplicates _ _).2 hr, rfl⟩

theorem filter_rowKey_eq (l : List Row) (h : (l.map rowKey).Nodup) (r : Row)
    (hr : r ∈ l) :
    l.filter (fun x => decide (rowKey x = rowKey r)) = [r] := by
  induction l with
  | nil => cases hr
  | cons a t ih =>
    rw [List.map_cons, List.nodup_cons] at h
    rcases List.mem_cons.1 hr with rfl | hrt
    · rw [List.filter_cons_of_pos (by simp)]
      have ht : t.filter (fun x => decide (rowKey x = rowKey r)) = [] := by
        rw [List.filter_eq_nil_iff]
        intro x hx hkey
        exact h.1 (List.mem_map.2 ⟨x, hx, (of_decide_eq_true hkey).symm ▸ rfl⟩)
      rw [ht]
    · rw [List.filter_cons_of_neg, ih h.2 hrt]
      intro hkey
      have hak : rowKey a = rowKey r := of_decide_eq_true hkey
      exact h.1 (List.mem_map.2 ⟨r, hrt, hak.symm⟩)

theorem meanQ_single (v : ℚ) : meanQ [v] = v := by
  simp [meanQ]

theorem aggMean_eq_self (l : List Row) (h : (l.map rowKey).Nodup) :
    aggMean l = l := by
  rw [aggMean, dropDuplicates_eq_self h, List.map_map]
  refine (List.map_congr_left ?_).trans (List.map_id l)
  intro r hr
  simp only [Function.comp_apply, id_eq]
  have hf : valuesAt l (rowKey r) = [rowVal r] := by
    rw [valuesAt, filter_rowKey_eq l h r hr]
    rfl
  rw [hf, meanQ_single]
  exact rfl

/-- **C2.** `pivot_stock_data` first drops exact duplicate rows, then groups
by `(Symbol, Date, Attribute)` replacing `Value` by the arithmetic mean: the
result has exactly one row per distinct input key (its key list is
duplicate-free and carries exactly the keys of the input), and two records
with an identical key and values 10 and 20 collapse to a single row with
value 15. -/
theorem claim_C2_dedup_then_mean_aggregate :
    (∀ l : List Row, ((dedupAggregate l).map rowKey).Nodup ∧
        ∀ k, k ∈ (dedupAggregate l).map rowKey ↔ k ∈ l.map rowKey) ∧
      dedupAggregate [("ABC", "2024Q1", "eps", (10 : ℚ)),
          ("ABC", "2024Q1", "eps", (20 : ℚ))] =
        [("ABC", "2024Q1", "eps", (15 : ℚ))] := by
  refine ⟨fun l => ⟨nodup_keys_aggMean _, fun k => ?_⟩, by
    norm_num [dedupAggregate, dropDuplicates, dropDupAux, aggMean, valuesAt,
      meanQ, rowKey, rowVal]⟩
  rw [dedupAggregate, mem_keys_aggMean, mem_map_rowKey_dropDuplicates]

/-- **C7.** The Deduplicator/Aggregator is idempotent: applying the composed
drop-duplicates-then-mean-aggregate operation to its own output returns that
output unchanged. -/
theorem claim_C7_dedup_aggregate_idempotent :
    ∀ l : List Row, dedupAggregate (dedupAggregate l) = dedupAggregate l := by
  intro l
  have hk : ((dedupAggregate l).map rowKey).Nodup := nodup_keys_aggMean _
  have hrows : (dedupAggregate l).Nodup := hk.of_map
  show aggMean (dropDuplicates (dedupAggregate l)) = dedupAggregate l
  rw [dropDuplicates_eq_self hrows, aggMean_eq_self _ hk]

theorem zip_self_map {α β : Type} (l : List α) (g : α → β) :
    l.zip (l.map g) = l.map (fun a => (a, g a)) := by
  induction l with
  | nil => rfl
  | cons a t ih => simp [ih]

theorem flatMap_map_comp {α β γ : Type} (l : List α) (f : α → β) (g : β → List γ) :
    (l.map f).flatMap g = l.flatMap (fun a => g (f a)) := by
  induction l with
  | nil => rfl
  | cons a t ih => simp [ih]

theorem flattenWide_pivotWide (l : List Row) :
    flattenWide (pivotWide l) =
      (dropDuplicates (l.map (fun r => (r.1, r.2.1)))).flatMap
        (fun sd => (attrsOf l).filterMap
          (fun a => (lookupVal l sd a).map (fun v => (sd.1, sd.2, a, v)))) := by
  rw [flattenWide, pivotWide]
  simp only [flatMap_map_comp, zip_self_map, List.filterMap_map, Function.comp_def]

theorem mem_keys_flattenWide_pivotWide (l : List Row) (k : String × String × String) :
    k ∈ (flattenWide (pivotWide l)).map rowKey ↔ k ∈ l.map rowKey := by
  rw [flattenWide_pivotWide]
  constructor
  · intro hk
    rcases List.mem_map.1 hk with ⟨r0, hr0, rfl⟩
    rcases List.mem_flatMap.1 hr0 with ⟨sd, _, hin⟩
    rcases List.mem_filterMap.1 hin with ⟨a, _, hsome⟩
    rcases Option.map_eq_some'.1 hsome with ⟨v, hv, rfl⟩
    rw [lookupVal] at hv
    rcases Option.map_eq_some'.1 hv with ⟨r, hfind, _⟩
    have hmem := List.mem_of_find?_eq_some hfind
    have hp0 := List.find?_some hfind
    have hpred : rowKey r = (sd.1, sd.2, a) := of_decide_eq_true hp0
    exact List.mem_map.2 ⟨r, hmem, by rw [hpred]; rfl⟩
  · intro hk
    rcases List.mem_map.1 hk with ⟨r, hr, rfl⟩
    have hsd : (r.1, r.2.1) ∈ dropDuplicates (l.map (fun r => (r.1, r.2.1))) :=
      (mem_dropDuplicates _ _).2 (List.mem_map.2 ⟨r, hr, rfl⟩)
    have hattr : r.2.2.1 ∈ attrsOf l :=
      (mem_dropDuplicates _ _).2 (List.mem_map.2 ⟨r, hr, rfl⟩)
    cases hfind : l.find? (fun x => decide (rowKey x = (r.1, r.2.1, r.2.2.1))) with
    | none =>
      exact absurd (decide_eq_true (show rowKey r = (r.1, r.2.1, r.2.2.1) from rfl))
        (List.find?_eq_none.1 hfind r hr)
    | some r1 =>
      refine List.mem_map.2 ⟨(r.1, r.2.1, r.2.2.1, rowVal r1), ?_, rfl⟩
      refine List.mem_flatMap.2 ⟨(r.1, r.2.1), hsd, ?_⟩
      refine List.mem_filterMap.2 ⟨r.2.2.1, hattr, ?_⟩
      show (Option.map rowVal
        (l.find? (fun x => decide (rowKey x = (r.1, r.2.1, r.2.2.1))))).map
          (fun v => (r.1, r.2.1, r.2.2.1, v)) = _
      rw [hfind]
      rfl

/-- **C3.** Pivot round trip: for a long table with a unique
`(Symbol, Date, Attribute)` key, flattening the pivoted wide table back to
long form by dropping the null cells yields exactly the original key set —
no key is added and none is lost. -/
theorem claim_C3_pivot_round_trip (l : List Row) (h : (l.map rowKey).Nodup) :
    ∀ k, k ∈ (flattenWide (pivotWide l)).map rowKey ↔ k ∈ l.map rowKey :=
  fun k => mem_keys_flattenWide_pivotWide l k

/-- Witness for C3 at a concrete two-row table. -/
theorem claim_C3_pivot_round_trip_witness :
    (([("ABC", "2024-01-01", "eps", (5 : ℚ)),
        ("ABC", "2024-01-02", "roe", (7 : ℚ))].map rowKey).Nodup ∧
      (("ABC", "2024-01-01", "eps") ∈
          (flattenWide (pivotWide [("ABC", "2024-01-01", "eps", (5 : ℚ)),
            ("ABC", "2024-01-02", "roe", (7 : ℚ))])).map rowKey ↔
        ("ABC", "2024-01-01", "eps") ∈
          ([("ABC", "2024-01-01", "eps", (5 : ℚ)),
            ("ABC", "2024-01-02", "roe", (7 : ℚ))].map rowKey))) :=
  ⟨by decide,
    claim_C3_pivot_round_trip
      [("ABC", "2024-01-01", "eps", (5 : ℚ)), ("ABC", "2024-01-02", "roe", (7 : ℚ))]
      (by decide) ("ABC", "2024-01-01", "eps")⟩

end HistoricalStatsPivoted

namespace HistoricalStats

theorem flattenFields_ok (symbol : String) :
    ∀ fields : List (String × Json), fields.all (fun p => isObj p.2) = true →
      flattenFields symbol fields =
        .ok (fields.flatMap
          (fun p => (entriesOf p.2).map (fun e => (symbol, e.1, p.1, e.2)))) := by
  intro fields
  induction fields with
  | nil => intro _; rfl
  | cons p rest ih =>
    intro hall
    rw [List.all_cons, Bool.and_eq_true] at hall
    obtain ⟨hp, hrest⟩ := hall
    obtain ⟨attr, v⟩ := p
    cases v with
    | obj es =>
      show (do
        let more ← flattenFields symbol rest
        Except.ok (es.map (fun e : String × Json => (symbol, e.1, attr, e.2)) ++ more)) = _
      rw [ih hrest]
      rfl
    | null => simp [isObj] at hp
    | bool b => simp [isObj] at hp
    | num q => simp [isObj] at hp
    | str s => simp [isObj] at hp
    | arr xs => simp [isObj] at hp

/-- **C4.** For an attribute-shape payload (an object whose attribute values
are all objects), `process_data` emits exactly one record per `(date, value)`
leaf — the full record list is the leaf-by-leaf flattening, tagged with the
input symbol and the attribute name as-is — and the record count is the sum
over attributes of their date-entry counts. -/
theorem claim_C4_process_data_one_record_per_leaf (symbol stat_type : String)
    (fields : List (String × Json))
    (h : fields.all (fun p => isObj p.2) = true) :
    process_data symbol stat_type (some (Json.obj fields)) =
        .ok (fields.flatMap
          (fun p => (entriesOf p.2).map (fun e => (symbol, e.1, p.1, e.2)))) ∧
      (fields.flatMap
          (fun p => (entriesOf p.2).map (fun e => (symbol, e.1, p.1, e.2)))).length =
        (fields.map (fun p => (entriesOf p.2).length)).sum := by
  constructor
  · cases fields with
    | nil => rfl
    | cons p rest =>
      show (if truthy (Json.obj (p :: rest)) = false then Except.ok []
        else flattenFields symbol (p :: rest)) = _
      rw [if_neg (by simp [truthy])]
      exact flattenFields_ok symbol (p :: rest) h
  · simp [List.length_flatMap, Function.comp_def, List.length_map]

/-- Witness for C4 at a concrete one-attribute payload. -/
theorem claim_C4_process_data_one_record_per_leaf_witness :
    ([("eps", Json.obj [("2024-03-31", Json.num 5)])].all
        (fun p => isObj p.2) = true) ∧
      process_data "ABC" "ratios"
          (some (Json.obj [("eps", Json.obj [("2024-03-31", Json.num 5)])])) =
        .ok [("ABC", "2024-03-31", "eps", Json.num 5)] :=
  ⟨rfl, (claim_C4_process_data_one_record_per_leaf "ABC" "ratios"
    [("eps", Json.obj [("2024-03-31", Json.num 5)])] rfl).1⟩

/-- **C5 counterexample.** A payload that decodes fine but is not an
attribute map — here the object `{"a": "b"}`, whose attribute value is a
string — makes `process_data` raise an uncaught `AttributeError`, which
terminates the whole batch: the claim that no payload content ever
terminates the batch is false. -/
theorem claim_C5_counterexample_batch_abort :
    process_symbols (fun _ _ => some (Json.obj [("a", Json.str "b")])) ["S"] none =
      .error "AttributeError: values has no attribute items" := rfl

theorem process_data_ok_of_payloadOk (symbol st : String) (data : Option Json)
    (h : payloadOk data = true) :
    ∃ rs, process_data symbol st data = .ok rs := by
  cases data with
  | none => exact ⟨[], rfl⟩
  | some j =>
    cases htr : truthy j with
    | false =>
      refine ⟨[], ?_⟩
      simp only [process_data]
      rw [if_pos htr]
    | true =>
      cases j with
      | obj fields =>
        refine ⟨fields.flatMap
          (fun p => (entriesOf p.2).map (fun e => (symbol, e.1, p.1, e.2))), ?_⟩
        simp only [process_data]
        rw [if_neg (by simp [htr])]
        refine flattenFields_ok symbol fields ?_
        simp only [payloadOk, htr, Bool.not_true, Bool.false_or] at h
        exact h
      | null => simp [payloadOk, htr] at h
      | bool b => simp [payloadOk, htr] at h
      | num q => simp [payloadOk, htr] at h
      | str s => simp [payloadOk, htr] at h
      | arr xs => simp [payloadOk, htr] at h

theorem collectStats_ok (fetched : String → String → Option Json) (symbol : String)
    (h : ∀ st, payloadOk (fetched symbol st) = true) :
    ∀ sts : List String, ∃ rs, collectStats fetched symbol sts = .ok rs := by
  intro sts
  induction sts with
  | nil => exact ⟨[], rfl⟩
  | cons st rest ih =>
    obtain ⟨rs1, h1⟩ := process_data_ok_of_payloadOk symbol st (fetched symbol st) (h st)
    obtain ⟨rs2, h2⟩ := ih
    exact ⟨rs1 ++ rs2, by rw [collectStats, h1, h2]; rfl⟩

theorem collectAll_ok (fetched : String → String → Option Json)
    (h : ∀ s st, payloadOk (fetched s st) = true) :
    ∀ symbols : List String, ∃ rs, collectAll fetched symbols = .ok rs := by
  intro symbols
  induction symbols with
  | nil => exact ⟨[], rfl⟩
  | cons s rest ih =>
    obtain ⟨rs1, h1⟩ := collectStats_ok fetched s (h s) STAT_TYPES
    obtain ⟨rs2, h2⟩ := ih
    exact ⟨rs1 ++ rs2, by rw [collectAll, h1, h2]; rfl⟩

/-- **C5 amended.** For every batch whose fetched payloads are each either
undecodable (`None`), falsy (null/empty), or a well-shaped attribute map,
every item is handled per (symbol, stat-type) — an undecodable or empty
payload just contributes zero records — and `process_symbols` finishes
without raising (the batch is never terminated). -/
theorem claim_C5_amended_no_batch_abort (fetched : String → String → Option Json)
    (h : ∀ s st, payloadOk (fetched s st) = true) (symbols : List String)
    (fs : Option (List StatRecord)) :
    ∃ out, process_symbols fetched symbols fs = .ok out := by
  obtain ⟨rs, hrs⟩ := collectAll_ok fetched h symbols
  refine ⟨if rs.isEmpty then fs else some rs, ?_⟩
  rw [process_symbols, hrs]
  show (if rs.isEmpty = true then Except.ok fs else Except.ok (save_to_excel rs fs)) = _
  cases hEm : rs.isEmpty with
  | true => rfl
  | false => rfl

/-- Witness for the amended C5 with every fetch failing to decode. -/
theorem claim_C5_amended_no_batch_abort_witness :
    (∀ (s st : String), payloadOk ((fun _ _ => (none : Option Json)) s st) = true) ∧
      ∃ out, process_symbols (fun _ _ => (none : Option Json)) ["COCHINSHIP"] none =
        .ok out :=
  ⟨fun _ _ => rfl,
    claim_C5_amended_no_batch_abort (fun _ _ => none) (fun _ _ => rfl) ["COCHINSHIP"] none⟩

/-- **C10.** When every (symbol, stat-type) item contributes zero records,
the accumulated list is empty, `save_to_excel` is never reached, and the
pre-existing artifact survives unchanged. -/
theorem claim_C10_stale_artifact_survives (fetched : String → String → Option Json)
    (symbols : List String) (fs : Option (List StatRecord))
    (h : ∀ s st, process_data s st (fetched s st) = .ok []) :
    process_symbols fetched symbols fs = .ok fs := by
  have hstats : ∀ s sts, collectStats fetched s sts = .ok [] := by
    intro s sts
    induction sts with
    | nil => rfl
    | cons st rest ih =>
      rw [collectStats, h, ih]
      rfl
  have hall : collectAll fetched symbols = .ok [] := by
    induction symbols with
    | nil => rfl
    | cons s rest ih =>
      rw [collectAll, hstats, ih]
      rfl
  rw [process_symbols, hall]
  rfl

/-- Witness for C10: a run with only undecodable payloads leaves a stale
artifact in place. -/
theorem claim_C10_stale_artifact_survives_witness :
    (∀ (s st : String), process_data s st ((fun _ _ => (none : Option Json)) s st) = .ok []) ∧
      process_symbols (fun _ _ => (none : Option Json)) ["COCHINSHIP", "DIXON"]
          (some [("X", "2024-03-31", "eps", Json.num 1)]) =
        .ok (some [("X", "2024-03-31", "eps", Json.num 1)]) :=
  ⟨fun _ _ => rfl,
    claim_C10_stale_artifact_survives (fun _ _ => none) ["COCHINSHIP", "DIXON"]
      (some [("X", "2024-03-31", "eps", Json.num 1)]) (fun _ _ => rfl)⟩

end HistoricalStats

theorem option_or_assoc {α : Type} (a b c : Option α) :
    (a.or b).or c = a.or (b.or c) := by
  cases a <;> rfl

theorem findSome?_append {α β : Type} (l1 l2 : List α) (f : α → Option β) :
    (l1 ++ l2).findSome? f = (l1.findSome? f).or (l2.findSome? f) := by
  induction l1 with
  | nil => rfl
  | cons a t ih =>
    cases hfa : f a with
    | none => simp [List.findSome?_cons, hfa, ih]
    | some b => simp [List.findSome?_cons, hfa]

theorem findSome?_singleton {α β : Type} (f : α → Option β) (a : α) :
    [a].findSome? f = f a := by
  cases hfa : f a <;> simp [List.findSome?_cons, hfa]

namespace HistoricalPrice

theorem save_or_none (datasets : List Dataset) (symbol : String)
    (fs : Option ConsTable) :
    save_to_excel_consolidated datasets symbol fs =
      (save_to_excel_consolidated datasets symbol none).or fs := by
  by_cases h : datasets.isEmpty <;> simp [save_to_excel_consolidated, h, Option.or]

/-- **C9.** Each successful `save_to_excel_consolidated` deletes the whole
output artifact before writing its symbol's table, so after
`process_all_symbols` the artifact holds exactly the consolidated table of
the last symbol for which data was produced (the first, scanning the symbol
list from the right, whose save is not a skip); if no symbol produced data
the prior artifact is untouched.  Earlier symbols' tables are never present
in the final artifact. -/
theorem claim_C9_last_written_symbol_wins (fetch : String → List Dataset)
    (symbols : List String) (fs : Option ConsTable) :
    process_all_symbols fetch symbols fs =
      (symbols.reverse.findSome?
        (fun s => save_to_excel_consolidated (fetch s) s none)).or fs := by
  induction symbols generalizing fs with
  | nil => rfl
  | cons s rest ih =>
    show process_all_symbols fetch rest (save_to_excel_consolidated (fetch s) s fs) = _
    rw [ih, save_or_none, ← option_or_assoc, List.reverse_cons, findSome?_append,
      findSome?_singleton]

/-- **C6.** The concrete single-dataset scenario: payload
`{"datasets": [{"label": "Close", "values": [["2024-01-01", 100],
["2024-01-02", 101]]}]}` for symbol `"ABC"` yields the consolidated table
with header `Date, Close 1, Symbol` and exactly the two rows
`(2024-01-01, 100, ABC)` and `(2024-01-02, 101, ABC)`; the non-Date column
name is the dataset label with the 1-based positional index. -/
theorem claim_C6_concrete_single_dataset :
    save_to_excel_consolidated
        [⟨"Close", [("2024-01-01", [(100 : ℚ)]), ("2024-01-02", [(101 : ℚ)])]⟩]
        "ABC" none =
      some ⟨⟨["Close 1"],
        [("2024-01-01", [some (100 : ℚ)]), ("2024-01-02", [some (101 : ℚ)])]⟩,
        "ABC"⟩ ∧
    consCols ⟨⟨["Close 1"],
        [("2024-01-01", [some (100 : ℚ)]), ("2024-01-02", [some (101 : ℚ)])]⟩,
        "ABC"⟩ =
      ["Date", "Close 1", "Symbol"] := by
  constructor
  · rfl
  · rfl

end HistoricalPrice

namespace HistoricalPrice

theorem hasDate_iff (t : Table) (d : String) :
    hasDate t d = true ↔ ∃ cs, (d, cs) ∈ t.rows := by
  rw [hasDate, List.any_eq_true]
  constructor
  · rintro ⟨r, hr, hbeq⟩
    have h1 : r.1 = d := by simpa using hbeq
    exact ⟨r.2, by rw [← h1]; exact hr⟩
  · rintro ⟨cs, hcs⟩
    exact ⟨(d, cs), hcs, by simp⟩

theorem hasDate_false_iff (t : Table) (d : String) :
    hasDate t d = false ↔ ∀ cs, (d, cs) ∉ t.rows := by
  constructor
  · intro h cs hmem
    have h2 : hasDate t d = true := (hasDate_iff t d).2 ⟨cs, hmem⟩
    rw [h] at h2
    cases h2
  · intro h
    cases hd : hasDate t d with
    | false => rfl
    | true =>
      rcases (hasDate_iff t d).1 hd with ⟨cs, hcs⟩
      exact absurd hcs (h cs)

theorem filter_date_isEmpty (t2 : Table) (d1 : String) :
    (t2.rows.filter (fun r2 => r2.1 == d1)).isEmpty = true ↔
      hasDate t2 d1 = false := by
  rw [List.isEmpty_iff, List.filter_eq_nil_iff]
  constructor
  · intro h
    cases hd : hasDate t2 d1 with
    | false => rfl
    | true =>
      rw [hasDate, List.any_eq_true] at hd
      rcases hd with ⟨r, hr, hb⟩
      exact absurd hb (h r hr)
  · intro h r hr hb
    rw [hasDate] at h
    exact (List.any_eq_false.1 h r hr) hb

theorem mem_mergeOne (t2 : Table) (d1 d : String) (cs1 cs : List (Option ℚ)) :
    (d, cs) ∈ mergeOne t2 (d1, cs1) ↔
      d = d1 ∧ ((hasDate t2 d1 = false ∧ cs = cs1 ++ nullRow t2.cols.length) ∨
        ∃ cs2, (d1, cs2) ∈ t2.rows ∧ cs = cs1 ++ cs2) := by
  show (d, cs) ∈ (if (t2.rows.filter (fun r2 => r2.1 == d1)).isEmpty
      then [(d1, cs1 ++ nullRow t2.cols.length)]
      else (t2.rows.filter (fun r2 => r2.1 == d1)).map
        (fun r2 => (d1, cs1 ++ r2.2))) ↔ _
  by_cases hms : (t2.rows.filter (fun r2 => r2.1 == d1)).isEmpty = true
  · have hfalse := (filter_date_isEmpty t2 d1).1 hms
    rw [if_pos hms]
    simp only [List.mem_singleton, Prod.mk.injEq]
    constructor
    · rintro ⟨rfl, rfl⟩
      exact ⟨rfl, Or.inl ⟨hfalse, rfl⟩⟩
    · rintro ⟨rfl, h2⟩
      rcases h2 with ⟨_, rfl⟩ | ⟨cs2, hcs2, rfl⟩
      · exact ⟨rfl, rfl⟩
      · exact absurd hcs2 ((hasDate_false_iff t2 d).1 hfalse cs2)
  · have htrue : hasDate t2 d1 = true := by
      cases hd : hasDate t2 d1 with
      | true => rfl
      | false => exact absurd ((filter_date_isEmpty t2 d1).2 hd) hms
    rw [if_neg hms]
    simp only [List.mem_map, List.mem_filter]
    constructor
    · rintro ⟨r2, ⟨hr2, hb⟩, heq⟩
      have hr21 : r2.1 = d1 := by simpa using hb
      rw [Prod.mk.injEq] at heq
      obtain ⟨hd1d, hcs⟩ := heq
      refine ⟨hd1d.symm, Or.inr ⟨r2.2, ?_, hcs.symm⟩⟩
      rw [← hr21]
      exact hr2
    · rintro ⟨rfl, h2⟩
      rcases h2 with ⟨hfalse, _⟩ | ⟨cs2, hcs2, rfl⟩
      · rw [htrue] at hfalse
        cases hfalse
      · exact ⟨(d, cs2), ⟨hcs2, by simp⟩, rfl⟩

theorem mem_mergeRows_iff (t1 t2 : Table) (d : String) (cs : List (Option ℚ)) :
    (d, cs) ∈ mergeRows t1 t2 ↔
      ((∃ cs1, (d, cs1) ∈ t1.rows ∧
          ((hasDate t2 d = false ∧ cs = cs1 ++ nullRow t2.cols.length) ∨
            ∃ cs2, (d, cs2) ∈ t2.rows ∧ cs = cs1 ++ cs2)) ∨
        (hasDate t1 d = false ∧ ∃ cs2, (d, cs2) ∈ t2.rows ∧
          cs = nullRow t1.cols.length ++ cs2)) := by
  rw [mergeRows, List.mem_append]
  constructor
  · rintro (hA | hB)
    · rcases List.mem_flatMap.1 hA with ⟨r, hr, hm⟩
      rcases (mem_mergeOne t2 r.1 d r.2 cs).1 hm with ⟨rfl, hrest⟩
      exact Or.inl ⟨r.2, hr, hrest⟩
    · rcases List.mem_map.1 hB with ⟨r2, hr2, heq⟩
      rw [List.mem_filter] at hr2
      rw [Prod.mk.injEq] at heq
      obtain ⟨hd, hcs⟩ := heq
      subst hd
      refine Or.inr ⟨by simpa using hr2.2, r2.2, hr2.1, hcs.symm⟩
  · rintro (⟨cs1, h1, hrest⟩ | ⟨hf1, cs2, h2, rfl⟩)
    · refine Or.inl (List.mem_flatMap.2 ⟨(d, cs1), h1, ?_⟩)
      exact (mem_mergeOne t2 d d cs1 cs).2 ⟨rfl, hrest⟩
    · refine Or.inr (List.mem_map.2 ⟨(d, cs2), ?_, rfl⟩)
      rw [List.mem_filter]
      exact ⟨h2, by simpa using hf1⟩

end HistoricalPrice

namespace HistoricalPrice

/-- The contribution of table `t` to a merged row of date `d`: its own row's
cells when it has the date, one null cell per column otherwise. -/
def slot (t : Table) (d : String) (x : List (Option ℚ)) : Prop :=
  (d, x) ∈ t.rows ∨ (hasDate t d = false ∧ x = nullRow t.cols.length)

theorem slot_exists (t : Table) (d : String) : ∃ x, slot t d x := by
  cases hd : hasDate t d with
  | true =>
    rcases (hasDate_iff t d).1 hd with ⟨cs, h⟩
    exact ⟨cs, Or.inl h⟩
  | false => exact ⟨nullRow t.cols.length, Or.inr ⟨hd, rfl⟩⟩

theorem mem_merge_slot (t1 t2 : Table) (d : String) (cs : List (Option ℚ)) :
    (d, cs) ∈ (merge t1 t2).rows ↔
      (hasDate t1 d = true ∨ hasDate t2 d = true) ∧
        ∃ x1 x2, slot t1 d x1 ∧ slot t2 d x2 ∧ cs = x1 ++ x2 := by
  show (d, cs) ∈ mergeRows t1 t2 ↔ _
  rw [mem_mergeRows_iff]
  constructor
  · rintro (⟨cs1, h1, hrest⟩ | ⟨hf1, cs2, h2, rfl⟩)
    · have ht1 : hasDate t1 d = true := (hasDate_iff t1 d).2 ⟨cs1, h1⟩
      rcases hrest with ⟨hf2, rfl⟩ | ⟨cs2, h2, rfl⟩
      · exact ⟨Or.inl ht1, cs1, nullRow t2.cols.length,
          Or.inl h1, Or.inr ⟨hf2, rfl⟩, rfl⟩
      · exact ⟨Or.inl ht1, cs1, cs2, Or.inl h1, Or.inl h2, rfl⟩
    · have ht2 : hasDate t2 d = true := (hasDate_iff t2 d).2 ⟨cs2, h2⟩
      exact ⟨Or.inr ht2, nullRow t1.cols.length, cs2,
        Or.inr ⟨hf1, rfl⟩, Or.inl h2, rfl⟩
  · rintro ⟨hor, x1, x2, hs1, hs2, rfl⟩
    rcases hs1 with h1 | ⟨hf1, rfl⟩
    · rcases hs2 with h2 | ⟨hf2, rfl⟩
      · exact Or.inl ⟨x1, h1, Or.inr ⟨x2, h2, rfl⟩⟩
      · exact Or.inl ⟨x1, h1, Or.inl ⟨hf2, rfl⟩⟩
    · rcases hs2 with h2 | ⟨hf2, rfl⟩
      · exact Or.inr ⟨hf1, x2, h2, rfl⟩
      · rcases hor with h | h
        · rw [hf1] at h
          cases h
        · rw [hf2] at h
          cases h

theorem hasDate_merge (t1 t2 : Table) (d : String) :
    hasDate (merge t1 t2) d = true ↔
      (hasDate t1 d = true ∨ hasDate t2 d = true) := by
  rw [hasDate_iff]
  constructor
  · rintro ⟨cs, hcs⟩
    exact ((mem_merge_slot t1 t2 d cs).1 hcs).1
  · intro hor
    rcases slot_exists t1 d with ⟨x1, hs1⟩
    rcases slot_exists t2 d with ⟨x2, hs2⟩
    exact ⟨x1 ++ x2, (mem_merge_slot t1 t2 d _).2 ⟨hor, x1, x2, hs1, hs2, rfl⟩⟩

theorem hasDate_merge_false (t1 t2 : Table) (d : String) :
    hasDate (merge t1 t2) d = false ↔
      (hasDate t1 d = false ∧ hasDate t2 d = false) := by
  constructor
  · intro h
    refine ⟨?_, ?_⟩
    · cases h1 : hasDate t1 d with
      | false => rfl
      | true =>
        have h2 := (hasDate_merge t1 t2 d).2 (Or.inl h1)
        rw [h] at h2
        cases h2
    · cases h1 : hasDate t2 d with
      | false => rfl
      | true =>
        have h2 := (hasDate_merge t1 t2 d).2 (Or.inr h1)
        rw [h] at h2
        cases h2
  · rintro ⟨h1, h2⟩
    cases hm : hasDate (merge t1 t2) d with
    | false => rfl
    | true =>
      rcases (hasDate_merge t1 t2 d).1 hm with h | h
      · rw [h1] at h
        cases h
      · rw [h2] at h
        cases h

theorem nullRow_merge (t1 t2 : Table) :
    nullRow (merge t1 t2).cols.length =
      nullRow t1.cols.length ++ nullRow t2.cols.length := by
  show nullRow (t1.cols ++ t2.cols).length = _
  rw [nullRow, nullRow, nullRow, List.length_append, List.replicate_add]

theorem slot_merge (t1 t2 : Table) (d : String) (x : List (Option ℚ)) :
    slot (merge t1 t2) d x ↔
      ∃ x1 x2, slot t1 d x1 ∧ slot t2 d x2 ∧ x = x1 ++ x2 := by
  constructor
  · rintro (hmem | ⟨hf, rfl⟩)
    · rcases (mem_merge_slot t1 t2 d x).1 hmem with ⟨_, x1, x2, hs1, hs2, rfl⟩
      exact ⟨x1, x2, hs1, hs2, rfl⟩
    · rcases (hasDate_merge_false t1 t2 d).1 hf with ⟨hf1, hf2⟩
      exact ⟨nullRow t1.cols.length, nullRow t2.cols.length,
        Or.inr ⟨hf1, rfl⟩, Or.inr ⟨hf2, rfl⟩, nullRow_merge t1 t2⟩
  · rintro ⟨x1, x2, hs1, hs2, rfl⟩
    rcases hs1 with h1 | ⟨hf1, rfl⟩
    · exact Or.inl ((mem_merge_slot t1 t2 d _).2
        ⟨Or.inl ((hasDate_iff t1 d).2 ⟨x1, h1⟩), x1, x2, Or.inl h1, hs2, rfl⟩)
    · rcases hs2 with h2 | ⟨hf2, rfl⟩
      · exact Or.inl ((mem_merge_slot t1 t2 d _).2
          ⟨Or.inr ((hasDate_iff t2 d).2 ⟨x2, h2⟩), nullRow t1.cols.length, x2,
            Or.inr ⟨hf1, rfl⟩, Or.inl h2, rfl⟩)
      · exact Or.inr ⟨(hasDate_merge_false t1 t2 d).2 ⟨hf1, hf2⟩,
          (nullRow_merge t1 t2).symm ▸ rfl⟩

/-- **C8.** The pairwise left-to-right outer merges on the `Date` key are
associative: re-associating the merges changes neither the column list nor
the set of rows — for all three tables (duplicate dates allowed), the
left-nested and right-nested merges have the same columns and exactly the
same rows. -/
theorem claim_C8_outer_merge_associative (t1 t2 t3 : Table) :
    (merge (merge t1 t2) t3).cols = (merge t1 (merge t2 t3)).cols ∧
      ∀ r, r ∈ (merge (merge t1 t2) t3).rows ↔
        r ∈ (merge t1 (merge t2 t3)).rows := by
  constructor
  · show (t1.cols ++ t2.cols) ++ t3.cols = t1.cols ++ (t2.cols ++ t3.cols)
    exact List.append_assoc _ _ _
  · rintro ⟨d, cs⟩
    rw [mem_merge_slot, mem_merge_slot]
    constructor
    · rintro ⟨hor, xA, x3, hsA, hs3, rfl⟩
      rcases (slot_merge t1 t2 d xA).1 hsA with ⟨x1, x2, hs1, hs2, rfl⟩
      refine ⟨?_, x1, x2 ++ x3, hs1,
        (slot_merge t2 t3 d _).2 ⟨x2, x3, hs2, hs3, rfl⟩, List.append_assoc _ _ _⟩
      rcases hor with h | h
      · rcases (hasDate_merge t1 t2 d).1 h with h1 | h2
        · exact Or.inl h1
        · exact Or.inr ((hasDate_merge t2 t3 d).2 (Or.inl h2))
      · exact Or.inr ((hasDate_merge t2 t3 d).2 (Or.inr h))
    · rintro ⟨hor, x1, xB, hs1, hsB, rfl⟩
      rcases (slot_merge t2 t3 d xB).1 hsB with ⟨x2, x3, hs2, hs3, rfl⟩
      refine ⟨?_, x1 ++ x2, x3,
        (slot_merge t1 t2 d _).2 ⟨x1, x2, hs1, hs2, rfl⟩, hs3,
        (List.append_assoc _ _ _).symm⟩
      rcases hor with h | h
      · exact Or.inl ((hasDate_merge t1 t2 d).2 (Or.inl h))
      · rcases (hasDate_merge t2 t3 d).1 h with h2 | h3
        · exact Or.inl ((hasDate_merge t1 t2 d).2 (Or.inr h2))
        · exact Or.inr h3

end HistoricalPrice

namespace HistoricalPrice

theorem datesOf_datasetTable (ds : Dataset) :
    datesOf (datasetTable ds) = ds.values.map Prod.fst := by
  rw [datasetTable, datesOf, List.map_map]
  rfl

theorem datasetCols_length (ds : Dataset) :
    (datasetTable ds).cols.length = arityOf ds := by
  rw [datasetTable, datasetCols, List.length_map, List.length_range]

theorem hasDate_mem_iff (t : Table) (d : String) :
    hasDate t d = true ↔ d ∈ datesOf t := by
  rw [hasDate_iff, datesOf]
  constructor
  · rintro ⟨cs, hcs⟩
    exact List.mem_map.2 ⟨(d, cs), hcs, rfl⟩
  · intro h
    rcases List.mem_map.1 h with ⟨r, hr, rfl⟩
    exact ⟨r.2, hr⟩

theorem not_hasDate_iff_not_mem (t : Table) (d : String) :
    hasDate t d = false ↔ d ∉ datesOf t := by
  constructor
  · intro h hmem
    have h2 := (hasDate_mem_iff t d).2 hmem
    rw [h] at h2
    cases h2
  · intro h
    cases hd : hasDate t d with
    | false => rfl
    | true => exact absurd ((hasDate_mem_iff t d).1 hd) h

theorem mem_datesOf_merge (t1 t2 : Table) (d : String) :
    d ∈ datesOf (merge t1 t2) ↔ d ∈ datesOf t1 ∨ d ∈ datesOf t2 := by
  rw [← hasDate_mem_iff, hasDate_merge, hasDate_mem_iff, hasDate_mem_iff]

theorem merge_empty (t : Table) : merge emptyTable t = t := by
  obtain ⟨cols, rows⟩ := t
  rw [merge, mergeRows]
  congr 1
  show List.nil.flatMap (mergeOne ⟨cols, rows⟩) ++
    (rows.filter (fun r2 => !(hasDate emptyTable r2.1))).map
      (fun r2 => (r2.1, nullRow ([] : List String).length ++ r2.2)) = rows
  rw [List.flatMap_nil, List.nil_append]
  have hfilter : rows.filter (fun r2 => !(hasDate emptyTable r2.1)) = rows := by
    rw [List.filter_eq_self]
    intro r _
    rfl
  rw [hfilter]
  refine (List.map_congr_left ?_).trans (List.map_id rows)
  intro r _
  rfl

theorem mergeOne_ne_nil (t2 : Table) (r : String × List (Option ℚ)) :
    mergeOne t2 r ≠ [] := by
  show (if (t2.rows.filter (fun r2 => r2.1 == r.1)).isEmpty
      then [(r.1, r.2 ++ nullRow t2.cols.length)]
      else (t2.rows.filter (fun r2 => r2.1 == r.1)).map
        (fun r2 => (r.1, r.2 ++ r2.2))) ≠ []
  by_cases hms : (t2.rows.filter (fun r2 => r2.1 == r.1)).isEmpty = true
  · rw [if_pos hms]
    simp
  · rw [if_neg hms]
    rw [Ne, List.map_eq_nil_iff]
    intro hnil
    rw [hnil] at hms
    exact hms rfl

theorem mergeRows_ne_nil_left (t1 t2 : Table) (h : t1.rows ≠ []) :
    mergeRows t1 t2 ≠ [] := by
  rcases List.exists_mem_of_ne_nil t1.rows h with ⟨r, hr⟩
  rcases List.exists_mem_of_ne_nil (mergeOne t2 r) (mergeOne_ne_nil t2 r) with ⟨x, hx⟩
  have hmem : x ∈ mergeRows t1 t2 := by
    rw [mergeRows, List.mem_append]
    exact Or.inl (List.mem_flatMap.2 ⟨r, hr, hx⟩)
  exact List.ne_nil_of_mem hmem

theorem filter_date_length_le_one (rows : List (String × List (Option ℚ)))
    (h : (rows.map Prod.fst).Nodup) (d : String) :
    (rows.filter (fun r2 => r2.1 == d)).length ≤ 1 := by
  induction rows with
  | nil => simp
  | cons a t ih =>
    rw [List.map_cons, List.nodup_cons] at h
    by_cases ha : (a.1 == d) = true
    · rw [List.filter_cons, if_pos ha]
      have hnil : t.filter (fun r2 => r2.1 == d) = [] := by
        rw [List.filter_eq_nil_iff]
        intro r hr hb
        have h1 : r.1 = d := by simpa using hb
        have h2 : a.1 = d := by simpa using ha
        exact h.1 (h2 ▸ h1 ▸ List.mem_map.2 ⟨r, hr, rfl⟩)
      rw [hnil]
      simp
    · rw [List.filter_cons, if_neg ha]
      exact ih h.2

theorem mapfst_mergeOne (t2 : Table) (h : (datesOf t2).Nodup)
    (r : String × List (Option ℚ)) :
    (mergeOne t2 r).map Prod.fst = [r.1] := by
  show (if (t2.rows.filter (fun r2 => r2.1 == r.1)).isEmpty
      then [(r.1, r.2 ++ nullRow t2.cols.length)]
      else (t2.rows.filter (fun r2 => r2.1 == r.1)).map
        (fun r2 => (r.1, r.2 ++ r2.2))).map Prod.fst = [r.1]
  by_cases hms : (t2.rows.filter (fun r2 => r2.1 == r.1)).isEmpty = true
  · rw [if_pos hms]
    rfl
  · rw [if_neg hms]
    have hlen := filter_date_length_le_one t2.rows h r.1
    have hne : (t2.rows.filter (fun r2 => r2.1 == r.1)).length ≠ 0 := by
      intro h0
      rw [List.length_eq_zero] at h0
      rw [h0] at hms
      exact hms rfl
    have hone : (t2.rows.filter (fun r2 => r2.1 == r.1)).length = 1 :=
      Nat.le_antisymm hlen (Nat.one_le_iff_ne_zero.2 hne)
    rcases List.length_eq_one.1 hone with ⟨x, hx⟩
    rw [hx]
    rfl

theorem mapfst_filter_comm (rows : List (String × List (Option ℚ)))
    (p : String → Bool) :
    (rows.filter (fun r2 => p r2.1)).map Prod.fst =
      (rows.map Prod.fst).filter p := by
  induction rows with
  | nil => rfl
  | cons a t ih =>
    by_cases ha : p a.1 = true
    · rw [List.filter_cons, if_pos ha, List.map_cons, List.map_cons,
        List.filter_cons, if_pos ha, ih]
    · rw [List.filter_cons, if_neg ha, List.map_cons,
        List.filter_cons, if_neg ha, ih]

theorem dates_merge (t1 t2 : Table) (h2 : (datesOf t2).Nodup) :
    datesOf (merge t1 t2) =
      datesOf t1 ++ (datesOf t2).filter (fun d => !(hasDate t1 d)) := by
  show (mergeRows t1 t2).map Prod.fst = _
  rw [mergeRows, List.map_append]
  congr 1
  · rw [List.map_flatMap]
    have hsing : ∀ r ∈ t1.rows, (mergeOne t2 r).map Prod.fst = [r.1] :=
      fun r _ => mapfst_mergeOne t2 h2 r
    calc t1.rows.flatMap (fun r => (mergeOne t2 r).map Prod.fst)
        = t1.rows.flatMap (fun r => [r.1]) := by
          induction t1.rows with
          | nil => rfl
          | cons a t ih =>
            rw [List.flatMap_cons, List.flatMap_cons,
              mapfst_mergeOne t2 h2 a, ih]
      _ = t1.rows.map Prod.fst := by
          induction t1.rows with
          | nil => rfl
          | cons a t ih => rw [List.flatMap_cons, List.map_cons, ih]; rfl
  · rw [List.map_map]
    show (t2.rows.filter (fun r2 => !(hasDate t1 r2.1))).map
      (Prod.fst ∘ fun r2 => (r2.1, nullRow t1.cols.length ++ r2.2)) = _
    have hcomp : (Prod.fst ∘ fun r2 : String × List (Option ℚ) =>
        (r2.1, nullRow t1.cols.length ++ r2.2)) = Prod.fst := funext fun r2 => rfl
    rw [hcomp]
    exact mapfst_filter_comm t2.rows (fun d => !(hasDate t1 d))

theorem nodup_dates_merge (t1 t2 : Table) (h1 : (datesOf t1).Nodup)
    (h2 : (datesOf t2).Nodup) : (datesOf (merge t1 t2)).Nodup := by
  rw [dates_merge t1 t2 h2]
  refine List.Nodup.append h1 (h2.filter _) ?_
  intro d hd1 hd2
  rw [List.mem_filter] at hd2
  have hfalse : hasDate t1 d = false := by
    cases hh : hasDate t1 d with
    | false => rfl
    | true =>
      rw [hh] at hd2
      simpa using hd2.2
  exact absurd hd1 ((not_hasDate_iff_not_mem t1 d).1 hfalse)

end HistoricalPrice

namespace HistoricalPrice

theorem find?_date_eq_of_nodup {β : Type} (l : List (String × β))
    (h : (l.map Prod.fst).Nodup) (d : String) (c : β) (hmem : (d, c) ∈ l) :
    l.find? (fun r => r.1 == d) = some (d, c) := by
  induction l with
  | nil => cases hmem
  | cons a t ih =>
    rw [List.map_cons, List.nodup_cons] at h
    rcases List.mem_cons.1 hmem with heq | hmemt
    · subst heq
      exact List.find?_cons_of_pos _ (by simp)
    · have hd : d ∈ t.map Prod.fst := List.mem_map.2 ⟨(d, c), hmemt, rfl⟩
      have hne : ¬((fun r : String × β => r.1 == d) a = true) := by
        simp only [beq_iff_eq]
        intro heq2
        exact h.1 (heq2 ▸ hd)
      rw [@List.find?_cons_of_neg _ (fun r : String × β => r.1 == d) a t hne]
      exact ih h.2 hmemt

theorem dsCell_of_mem (ds : Dataset) (h : (ds.values.map Prod.fst).Nodup)
    (d : String) (v : List ℚ) (hmem : (d, v) ∈ ds.values) :
    dsCell ds d = v.map some := by
  rw [dsCell, find?_date_eq_of_nodup ds.values h d v hmem]

theorem dsCell_of_not_mem (ds : Dataset) (d : String)
    (h : d ∉ ds.values.map Prod.fst) :
    dsCell ds d = nullRow (arityOf ds) := by
  rw [dsCell]
  have hnone : ds.values.find? (fun r => r.1 == d) = none := by
    rw [List.find?_eq_none]
    intro r hr hb
    exact h (List.mem_map.2 ⟨r, hr, by simpa using hb⟩)
  rw [hnone]

theorem slot_datasetTable (ds : Dataset) (h : (ds.values.map Prod.fst).Nodup)
    (d : String) (x : List (Option ℚ)) (hs : slot (datasetTable ds) d x) :
    x = dsCell ds d := by
  rcases hs with hmem | ⟨hf, rfl⟩
  · rw [datasetTable] at hmem
    rcases List.mem_map.1 hmem with ⟨r0, hr0, heq⟩
    rw [Prod.mk.injEq] at heq
    obtain ⟨hd, hx⟩ := heq
    rw [← hx]
    exact (dsCell_of_mem ds h d r0.2 (by rw [← hd]; exact hr0)).symm
  · have hnm : d ∉ ds.values.map Prod.fst := by
      have h2 := (not_hasDate_iff_not_mem (datasetTable ds) d).1 hf
      rw [datesOf_datasetTable] at h2
      exact h2
    rw [dsCell_of_not_mem ds d hnm, datasetCols_length]

theorem consStep_eq_merge (acc : Table) (ds : Dataset) (hne : ds.values ≠ [])
    (hacc : acc = emptyTable ∨ acc.rows ≠ []) :
    consStep acc ds = merge acc (datasetTable ds) := by
  rw [consStep, if_neg (by simpa [List.isEmpty_iff] using hne)]
  rcases hacc with rfl | hrows
  · rw [if_pos (show emptyTable.rows.isEmpty = true from rfl)]
    exact (merge_empty (datasetTable ds)).symm
  · rw [if_neg (by simpa [List.isEmpty_iff] using hrows)]

theorem consStep_rows_ne_nil (acc : Table) (ds : Dataset) (hne : ds.values ≠ [])
    (hacc : acc = emptyTable ∨ acc.rows ≠ []) :
    (consStep acc ds).rows ≠ [] := by
  rw [consStep_eq_merge acc ds hne hacc]
  rcases hacc with rfl | hrows
  · rw [merge_empty]
    show (datasetTable ds).rows ≠ []
    rw [datasetTable]
    simp only [Ne, List.map_eq_nil_iff]
    exact hne
  · exact mergeRows_ne_nil_left acc (datasetTable ds) hrows

theorem consFold_spec :
    ∀ (dss : List Dataset) (acc : Table) (accCell : String → List (Option ℚ)),
      (∀ ds ∈ dss, ds.values ≠ [] ∧ (ds.values.map Prod.fst).Nodup) →
      (acc = emptyTable ∨ acc.rows ≠ []) →
      (datesOf acc).Nodup →
      (∀ d cs, (d, cs) ∈ acc.rows → cs = accCell d) →
      (∀ d, d ∉ datesOf acc → accCell d = nullRow acc.cols.length) →
      (datesOf (dss.foldl consStep acc)).Nodup ∧
        (∀ d, d ∈ datesOf (dss.foldl consStep acc) ↔
          d ∈ datesOf acc ∨ d ∈ allDates dss) ∧
        (∀ d cs, (d, cs) ∈ (dss.foldl consStep acc).rows →
          cs = accCell d ++ cellSpec dss d) := by
  intro dss
  induction dss with
  | nil =>
    intro acc accCell _ _ hnd hcell _
    refine ⟨hnd, ?_, ?_⟩
    · intro d
      simp [allDates]
    · intro d cs hmem
      have h1 := hcell d cs hmem
      simp [cellSpec, h1]
  | cons ds rest ih =>
    intro acc accCell hdss hacc hnd hcell hnull
    have hds := hdss ds (List.mem_cons_self ds rest)
    have hrest : ∀ d2 ∈ rest, d2.values ≠ [] ∧ (d2.values.map Prod.fst).Nodup :=
      fun d2 h2 => hdss d2 (List.mem_cons_of_mem ds h2)
    rw [List.foldl_cons, consStep_eq_merge acc ds hds.1 hacc]
    have hndds : (datesOf (datasetTable ds)).Nodup := by
      rw [datesOf_datasetTable]
      exact hds.2
    have hnd2 : (datesOf (merge acc (datasetTable ds))).Nodup :=
      nodup_dates_merge acc (datasetTable ds) hnd hndds
    have hacc2ne : merge acc (datasetTable ds) = emptyTable ∨
        (merge acc (datasetTable ds)).rows ≠ [] := by
      right
      rw [← consStep_eq_merge acc ds hds.1 hacc]
      exact consStep_rows_ne_nil acc ds hds.1 hacc
    have hcell2 : ∀ d cs, (d, cs) ∈ (merge acc (datasetTable ds)).rows →
        cs = accCell d ++ dsCell ds d := by
      intro d cs hmem
      rcases (mem_merge_slot acc (datasetTable ds) d cs).1 hmem with
        ⟨_, x1, x2, hs1, hs2, rfl⟩
      have hx1 : x1 = accCell d := by
        rcases hs1 with hm | ⟨hf, rfl⟩
        · exact hcell d x1 hm
        · exact (hnull d ((not_hasDate_iff_not_mem acc d).1 hf)).symm
      have hx2 : x2 = dsCell ds d := slot_datasetTable ds hds.2 d x2 hs2
      rw [hx1, hx2]
    have hnull2 : ∀ d, d ∉ datesOf (merge acc (datasetTable ds)) →
        accCell d ++ dsCell ds d = nullRow (merge acc (datasetTable ds)).cols.length := by
      intro d hdm
      rw [mem_datesOf_merge] at hdm
      push_neg at hdm
      obtain ⟨h1, h2⟩ := hdm
      have hn1 := hnull d h1
      have hn2 : dsCell ds d = nullRow (arityOf ds) := by
        refine dsCell_of_not_mem ds d ?_
        rw [datesOf_datasetTable] at h2
        exact h2
      rw [hn1, hn2]
      show nullRow acc.cols.length ++ nullRow (arityOf ds) =
        nullRow (acc.cols ++ (datasetTable ds).cols).length
      rw [List.length_append, datasetCols_length, nullRow, nullRow, nullRow,
        List.replicate_add]
    obtain ⟨ihnd, ihmem, ihcell⟩ := ih (merge acc (datasetTable ds))
      (fun d => accCell d ++ dsCell ds d) hrest hacc2ne hnd2 hcell2 hnull2
    refine ⟨ihnd, ?_, ?_⟩
    · intro d
      rw [ihmem d, mem_datesOf_merge, datesOf_datasetTable]
      simp [allDates, or_assoc]
    · intro d cs hmem
      have h1 := ihcell d cs hmem
      rw [h1, List.append_assoc]
      rfl

end HistoricalPrice

namespace HistoricalPrice

/-- **C1 counterexample.** The claim fails as stated: a payload whose single
dataset has non-empty `values` but repeats a date yields two consolidated
rows for one distinct date, so the row count does not equal the number of
distinct dates. -/
theorem claim_C1_counterexample_duplicate_date :
    (Dataset.mk "Price"
        [("2024-01-01", [(1 : ℚ)]), ("2024-01-01", [(2 : ℚ)])]).values ≠ [] ∧
      (buildConsolidated [Dataset.mk "Price"
        [("2024-01-01", [(1 : ℚ)]), ("2024-01-01", [(2 : ℚ)])]]).rows.length = 2 ∧
      (allDates [Dataset.mk "Price"
        [("2024-01-01", [(1 : ℚ)]), ("2024-01-01", [(2 : ℚ)])]]).toFinset.card = 1 := by
  refine ⟨by decide, by decide, by decide⟩

/-- **C1 amended.** For a series payload whose datasets each have non-empty
`values` with pairwise-distinct dates (pandas raises on neither condition,
but duplicate dates within a dataset multiply join rows), the consolidated
table has exactly one row per distinct date observed across all datasets:
its date list is duplicate-free, a date is present among its rows iff some
dataset has it (never dropped), the row count equals the number of distinct
dates across the datasets, and every row consists, dataset by dataset, of
that dataset's own values when it has the date and of one null per column of
a dataset that lacks it. -/
theorem claim_C1_amended_one_row_per_distinct_date (dss : List Dataset)
    (h : ∀ ds ∈ dss, ds.values ≠ [] ∧ (ds.values.map Prod.fst).Nodup) :
    (buildConsolidated dss).rows.length = (allDates dss).toFinset.card ∧
      (∀ d, d ∈ datesOf (buildConsolidated dss) ↔ d ∈ allDates dss) ∧
      (∀ d cs, (d, cs) ∈ (buildConsolidated dss).rows → cs = cellSpec dss d) := by
  obtain ⟨hnd, hmem, hcells⟩ := consFold_spec dss emptyTable (fun _ => []) h
    (Or.inl rfl) (by simp [datesOf, emptyTable])
    (by intro d cs h2; simp [emptyTable] at h2)
    (by intro d _; rfl)
  have hnd2 : (datesOf (buildConsolidated dss)).Nodup := hnd
  have hmem2 : ∀ d, d ∈ datesOf (buildConsolidated dss) ↔ d ∈ allDates dss := by
    intro d
    rw [buildConsolidated, hmem d]
    simp [datesOf, emptyTable]
  refine ⟨?_, hmem2, ?_⟩
  · have hlen : (datesOf (buildConsolidated dss)).length =
        (buildConsolidated dss).rows.length := List.length_map _ _
    have hset : (datesOf (buildConsolidated dss)).toFinset = (allDates dss).toFinset := by
      ext x
      simp only [List.mem_toFinset]
      exact hmem2 x
    rw [← hset, List.toFinset_card_of_nodup hnd2]
    exact hlen.symm
  · intro d cs hmem3
    have h4 := hcells d cs hmem3
    simpa using h4

/-- Witness for the amended C1 on two overlapping datasets with three
distinct dates. -/
theorem claim_C1_amended_one_row_per_distinct_date_witness :
    (buildConsolidated
        [Dataset.mk "Open" [("2024-01-01", [(1 : ℚ)]), ("2024-01-02", [(2 : ℚ)])],
         Dataset.mk "Close" [("2024-01-02", [(3 : ℚ)]), ("2024-01-03", [(4 : ℚ)])]]).rows.length =
      (allDates
        [Dataset.mk "Open" [("2024-01-01", [(1 : ℚ)]), ("2024-01-02", [(2 : ℚ)])],
         Dataset.mk "Close" [("2024-01-02", [(3 : ℚ)]), ("2024-01-03", [(4 : ℚ)])]]).toFinset.card :=
  (claim_C1_amended_one_row_per_distinct_date _ (by decide)).1

end HistoricalPrice
